import Mathlib

/-!
Shallow embedding of the SMAZ MicroPython codec (src/smaz.py and
src/smaz_multilang.py).  Python strings are modelled as lists of code
points (`List Nat`); the compressed stream is likewise a list of code
points, since the Python code builds it out of `chr`/`ord`.  Fallible
operations (`ValueError` raises) are modelled with `Except String`.
-/

set_option maxRecDepth 10000

namespace SmazProof

/-- Code points of a string, in order (models iterating a Python `str`). -/
def toCP (s : String) : List Nat := s.data.map Char.toNat

def smazDecode : List String := [
  " ", "the", "e", "t", "a", "of", "o", "and", "i", "n", "s", "e ", "r", " th", " t", "in", "he",
  "th", "h", "he ", "to", "\r\n", "l", "s ", "d", " a", "an", "er", "c", " o", "d ", "on", " of",
  "re", "of ", "t ", ", ", "is", "u", "at", "   ", "n ", "or", "which", "f", "m", "as", "it",
  "that", "\n", "was", "en", "  ", " w", "es", " an", " i", "\r", "f ", "g", "p", "nd", " s",
  "nd ", "ed ", "w", "ed", "http://", "for", "te", "ing", "y ", "The", " c", "ti", "r ", "his",
  "st", " in", "ar", "nt", ",", " to", "y", "ng", " h", "with", "le", "al", "to ", "b", "ou",
  "be", "were", " b", "se", "o ", "ent", "ha", "ng ", "their", "\"", "hi", "from", " f", "in ",
  "de", "ion", "me", "v", ".", "ve", "all", "re ", "ri", "ro", "is ", "co", "f t", "are", "ea",
  ". ", "her", " m", "er ", " p", "es ", "by", "they", "di", "ra", "ic", "not", "s, ", "d t",
  "at ", "ce", "la", "h ", "ne", "as ", "tio", "on ", "n t", "io", "we", " a ", "om", ", a",
  "s o", "ur", "li", "ll", "ch", "had", "this", "e t", "g ", "e\r\n", " wh", "ere", " co", "e o",
  "a ", "us", " d", "ss", "\n\r\n", "\r\n\r", "=\"", " be", " e", "s a", "ma", "one", "t t",
  "or ", "but", "el", "so", "l ", "e s", "s,", "no", "ter", " wa", "iv", "ho", "e a", " r", "hat",
  "s t", "ns", "ch ", "wh", "tr", "ut", "/", "have", "ly ", "ta", " ha", " on", "tha", "-", " l",
  "ati", "en ", "pe", " re", "there", "ass", "si", " fo", "wa", "ec", "our", "who", "its", "z",
  "fo", "rs", ">", "ot", "un", "<", "im", "th ", "nc", "ate", "><", "ver", "ad", " we", "ly",
  "ee", " n", "id", " cl", "ac", "il", "</", "rt", " wi", "div", "e, ", " it", "whi", " ma", "ge",
  "x", "e c", "men", ".com"]

def multiDecode : List String := [
  " ", "e", "a", "o", "n", "i", "s", "r", "l", "t", "d", "c", "m", "u", "p", "b", "g", "v", "f",
  "y", "h", "j", "k", "w", "z", "x", "q", "en", "es", "de", "la", "el", "ar", "on", "in", "or",
  "er", "an", "te", "ra", "al", "st", "nt", "to", "re", "ll", "co", "le", "se", "os", "as", "ta",
  "nd", "me", "lo", "ro", "po", "qu", "di", "ca", "si", "ti", "li", "do", "tr", "ma", "ch", "ue",
  "ci", "pr", "pa", "ri", "su", "mi", "mo", "un", "ha", "no", "ya", "que", "con", "los", "las",
  "por", "una", "para", "del", "está", "pero", "más", "como", "bien", "todo", "esta", "cada",
  "sobre", "entre", "muy", "hay", "debe", "así", "poco", "algo", "solo", "ción", "mente", "dad",
  "ado", "ido", "ando", "the", "and", "ing", "of", "to", "is", "that", "for", "you", "not",
  "with", "this", "are", "have", "be", "they", "from", "at", "one", "all", "by", "was", "were",
  "what", "when", "how", "tion", "able", "ive", "ed", "ly", "et", "dans", "pour", "les", "des",
  "est", "che", "per", "non", "sono", "uma", "das", "der", "das", "und", "ist", "den", "ein",
  "qui", "par", "dans", "com", "ne", "au", "ça", "ce", "je", "tu", "il", "da", "na", "em", "vor",
  "nach", "bei", "zum", "á", "é", "í", "ó", "ú", "ü", "ñ", "ç", "ã", "õ", "â", "ê", "î", "ô", "û",
  "à", "è", "ì", "ò", "ù", "ä", "ë", "ï", "ö", "ü", "ß", ".", ",", ":", ";", "?", "!", "(", ")",
  "-", "/", "\x27", "\"", "\n", "\r", "\r\n", "0", "1", "2", "3", "4", "5", "6", "7", "8", "9",
  "10", "20", "30", "00", "http://", "https://", ".com", ".org", ".net", ".io", "www.", "@", "&",
  "%", "+", "=", "#", "*", "$", "€", "£", "<", ">", "[", "]", "\x7b", "\x7d", "_", "|", "\\",
  "ok", "hi", "hello", "yes", "no", "hola", "gracias", "info", "help", "error", "user", "name",
  "email", "password", "login", "file", "menu", "home", "date", "time", "day", "month", "year",
  "2024", "2025", "jan", "feb", "mar", "apr", "may", "jun", "jul", "aug", "sep", "oct", "nov",
  "dec", "mon", "tue", "wed", "thu", "fri", "sat", "sun", "¿", "¡", "«", "»", "„", ", ", "‚",
  "\x27", "\x27", "‹", "›", "–", "—", "…"]

/-- The `Smaz.DECODE` table as code-point lists. -/
def smazTable : List (List Nat) := smazDecode.map toCP

/-- The `SmazMultilang.DECODE` table as code-point lists. -/
def multiTable : List (List Nat) := multiDecode.map toCP

/-- Models `_create_lookup`: a Python dict built by inserting entries in
index order, so a later index overwrites an earlier duplicate value
(last wins).  `base` is the index of the first entry of `entries`. -/
def dictLookup : List (List Nat) → Nat → List Nat → Option Nat
  | [], _, _ => none
  | e :: rest, base, s =>
    match dictLookup rest (base + 1) s with
    | some i => some i
    | none => if e = s then some base else none

/-- The lookup of `Smaz` (no cutoff: the whole table is inserted). -/
def smazLookup (s : List Nat) : Option Nat := dictLookup smazTable 0 s

/-- The lookup of `SmazMultilang`: `_create_lookup` stops at `enc_byte >= 254`,
so only the first 254 entries are inserted. -/
def multiLookup (s : List Nat) : Option Nat := dictLookup (multiTable.take 254) 0 s

/-- Bytes appended by `_flush_verbatim` for a given pending buffer (the
Python code also clears the buffer; callers model that by passing `[]`
afterwards). -/
def flushBytes (buffer : List Nat) : List Nat :=
  if buffer.isEmpty then []
  else if buffer.length = 1 then 254 :: buffer
  else 255 :: (buffer.length - 1) :: buffer

/-- Models the inner `for match_len in range(min(7, max_len - pos), 0, -1)`
loop of `compress`: try window lengths `n, n-1, ..., 1` and return the
first (longest) dictionary hit together with its length. -/
def tryLens (lookup : List Nat → Option Nat) (rest : List Nat) : Nat → Option (Nat × Nat)
  | 0 => none
  | n + 1 =>
    match lookup (rest.take (n + 1)) with
    | some i => some (i, n + 1)
    | none => tryLens lookup rest n

/-- Greedy match at the current position: window capped at `min 7 remaining`. -/
def findMatch (lookup : List Nat → Option Nat) (rest : List Nat) : Option (Nat × Nat) :=
  tryLens lookup rest (min 7 rest.length)

/-- The main `while pos < max_len` loop of `compress`, with the remaining
input, the pending verbatim buffer and the output accumulator.  The loop
runs at most one iteration per input element, so it is driven by a fuel
counter initialised to the input length; the zero-fuel case with input
left over is unreachable from `compressWith` (every iteration consumes at
least one element) and returns the final flush like the empty-input case. -/
def compressLoop (lookup : List Nat → Option Nat) :
    Nat → List Nat → List Nat → List Nat → List Nat
  | _, [], verbatim, output => output ++ flushBytes verbatim
  | 0, _ :: _, verbatim, output => output ++ flushBytes verbatim
  | fuel + 1, x :: rest, verbatim, output =>
    match findMatch lookup (x :: rest) with
    | some (i, m) =>
      compressLoop lookup fuel (rest.drop (m - 1)) [] (output ++ flushBytes verbatim ++ [i])
    | none =>
      let v := verbatim ++ [x]
      if v.length = 255 then compressLoop lookup fuel rest [] (output ++ flushBytes v)
      else compressLoop lookup fuel rest v output

/-- Models `_worst_size`: `overhead = full_chunks * 2 + (2 if remainder > 0 else 0)`
with `full_chunks = n / 255` and `remainder = n % 255`. -/
def worstSize (n : Nat) : Nat :=
  if n = 0 then 0
  else if n = 1 then 2
  else n + (n / 255 * 2 + (if n % 255 > 0 then 2 else 0))

/-- The chunking loop of `_encapsulate` (`for i in range(0, len(text), 255)`),
fuelled like `compressLoop` (every chunk consumes at least one element). -/
def encapChunks : Nat → List Nat → List Nat
  | _, [] => []
  | 0, _ :: _ => []
  | fuel + 1, x :: rest =>
    let chunk := (x :: rest).take 255
    let tok := if chunk.length = 1 then 254 :: chunk else 255 :: (chunk.length - 1) :: chunk
    tok ++ encapChunks fuel ((x :: rest).drop 255)

/-- Models `_encapsulate`. -/
def encapsulate (text : List Nat) : List Nat :=
  if text.isEmpty then [] else encapChunks text.length text

/-- Models `compress` of either class, parametrised by the lookup built at
construction time (the two classes differ only in table and cutoff). -/
def compressWith (lookup : List Nat → Option Nat) (checkAscii : Bool)
    (text : List Nat) : Except String (List Nat) :=
  if text.isEmpty then .ok []
  else if checkAscii && !(text.all (fun c => c < 128)) then
    .error "SMAZ solo procesa texto ASCII"
  else if (compressLoop lookup text.length text [] []).length > worstSize text.length then
    .ok (encapsulate text)
  else .ok (compressLoop lookup text.length text [] [])

/-- The `while pos < max_len` loop of `decompress`.  A first byte `< 254`
is a dictionary index (IndexError on an unpopulated one is caught and
re-raised as ValueError); `254` takes one raw code point; anything else
(`255` and, on non-byte input, any larger code point) is a literal-run
header with a length byte. -/
def decompressCore (table : List (List Nat)) : Nat → List Nat → Except String (List Nat)
  | _, [] => .ok []
  | 0, _ :: _ => .error "fuel exhausted (unreachable from decompress)"
  | fuel + 1, ch :: rest =>
    if ch < 254 then
      match table[ch]? with
      | some entry => (decompressCore table fuel rest).map (fun out => entry ++ out)
      | none => .error "Error de descompresión: list index out of range"
    else
      match rest with
      | [] => .error "Error de descompresión: string index out of range"
      | nb :: rest2 =>
        if ch = 254 then (decompressCore table fuel rest2).map (fun out => nb :: out)
        else
          if rest2.length < nb + 1 then
            .error "Error de descompresión: Desbordamiento de buffer"
          else
            (decompressCore table fuel (rest2.drop (nb + 1))).map
              (fun out => rest2.take (nb + 1) ++ out)

/-- Models `decompress` (the empty-input early return, then the loop). -/
def decompress (table : List (List Nat)) (compressed : List Nat) :
    Except String (List Nat) :=
  if compressed.isEmpty then .ok []
  else decompressCore table compressed.length compressed

/-- `Smaz.compress`. -/
def smazCompress (checkAscii : Bool) (text : List Nat) : Except String (List Nat) :=
  compressWith smazLookup checkAscii text

/-- `Smaz.decompress`. -/
def smazDecompress (compressed : List Nat) : Except String (List Nat) :=
  decompress smazTable compressed

/-- `SmazMultilang.compress`. -/
def multiCompress (checkAscii : Bool) (text : List Nat) : Except String (List Nat) :=
  compressWith multiLookup checkAscii text

/-- `SmazMultilang.decompress`. -/
def multiDecompress (compressed : List Nat) : Except String (List Nat) :=
  decompress multiTable compressed

/-- Splitting of a byte list into maximal verbatim flushes: the shape of the
output that `compressLoop` produces on input without any dictionary match
(the buffer is flushed each time it reaches 255 elements). -/
def chunkFlush (l : List Nat) : List Nat :=
  if _hshort : l.length < 255 then flushBytes l
  else flushBytes (l.take 255) ++ chunkFlush (l.drop 255)
termination_by l.length
decreasing_by
  simp [List.length_drop]
  omega

/-- Well-formed token streams of the wire format actually produced by the
encoder: a dictionary token is a populated index `< 254` whose entry has
length 1..7 (the scanning window), `254` is followed by one raw code
point, `255` by a length byte `len ≤ 254` and `len + 1` raw code points. -/
inductive TokenStream (table : List (List Nat)) : List Nat → Prop
  | nil : TokenStream table []
  | dict : ∀ i rest entry, i < 254 → table[i]? = some entry →
      1 ≤ entry.length → entry.length ≤ 7 →
      TokenStream table rest → TokenStream table (i :: rest)
  | single : ∀ b rest, TokenStream table rest → TokenStream table (254 :: b :: rest)
  | run : ∀ len bytes rest, len ≤ 254 → bytes.length = len + 1 →
      TokenStream table rest → TokenStream table (255 :: len :: (bytes ++ rest))

/-- Soundness of a reverse lookup with respect to a decode table: any hit is
a populated index below 254 whose entry is the looked-up string. -/
def GoodLookup (table : List (List Nat)) (lookup : List Nat → Option Nat) : Prop :=
  ∀ s i, lookup s = some i → i < 254 ∧ table[i]? = some s

theorem dictLookup_sound :
    ∀ (entries : List (List Nat)) (base : Nat) (s : List Nat) (i : Nat),
      dictLookup entries base s = some i →
      ∃ j, i = base + j ∧ entries[j]? = some s := by
  intro entries
  induction entries with
  | nil => intro base s i h; simp [dictLookup] at h
  | cons e rest ih =>
    intro base s i h
    rw [dictLookup] at h
    cases hrec : dictLookup rest (base + 1) s with
    | some i2 =>
      rw [hrec] at h
      have hi : i2 = i := Option.some.inj h
      obtain ⟨j, hj, hget⟩ := ih (base + 1) s i2 hrec
      exact ⟨j + 1, by omega, by simpa using hget⟩
    | none =>
      rw [hrec] at h
      by_cases he : e = s
      · simp only [he, if_pos rfl] at h
        have hi : base = i := Option.some.inj h
        exact ⟨0, by omega, by simp [he]⟩
      · simp [he] at h

theorem dictLookup_none :
    ∀ (entries : List (List Nat)) (base : Nat) (s : List Nat),
      dictLookup entries base s = none → ∀ j : Nat, entries[j]? ≠ some s := by
  intro entries
  induction entries with
  | nil => intro base s _ j; simp
  | cons e rest ih =>
    intro base s h j
    rw [dictLookup] at h
    cases hrec : dictLookup rest (base + 1) s with
    | some i2 => rw [hrec] at h; cases h
    | none =>
      rw [hrec] at h
      by_cases he : e = s
      · simp [he] at h
      · cases j with
        | zero => simpa using he
        | succ j2 => simpa using ih (base + 1) s hrec j2

theorem dictLookup_last :
    ∀ (entries : List (List Nat)) (base : Nat) (s : List Nat) (i : Nat),
      dictLookup entries base s = some i →
      ∀ j : Nat, entries[j]? = some s → base + j ≤ i := by
  intro entries
  induction entries with
  | nil => intro base s i h; simp [dictLookup] at h
  | cons e rest ih =>
    intro base s i h j hget
    rw [dictLookup] at h
    cases hrec : dictLookup rest (base + 1) s with
    | some i2 =>
      rw [hrec] at h
      have hi : i2 = i := Option.some.inj h
      cases j with
      | zero =>
        obtain ⟨j2, hj2, _⟩ := dictLookup_sound rest (base + 1) s i2 hrec
        omega
      | succ j2 =>
        have := ih (base + 1) s i2 hrec j2 (by simpa using hget)
        omega
    | none =>
      rw [hrec] at h
      by_cases he : e = s
      · simp only [he, if_pos rfl] at h
        have hi : base = i := Option.some.inj h
        cases j with
        | zero => omega
        | succ j2 =>
          exact absurd (by simpa using hget) (dictLookup_none rest (base + 1) s hrec j2)
      · simp [he] at h

theorem smazTable_length : smazTable.length = 254 := by decide

theorem multiTable_length : multiTable.length = 316 := by decide

theorem smazLookup_good : GoodLookup smazTable smazLookup := by
  intro s i h
  obtain ⟨j, hj, hget⟩ := dictLookup_sound smazTable 0 s i h
  have hlt : j < smazTable.length := by
    by_contra hge
    rw [List.getElem?_eq_none (by omega)] at hget
    cases hget
  refine ⟨by rw [smazTable_length] at hlt; omega, ?_⟩
  rw [hj]; simpa using hget

theorem multiLookup_good : GoodLookup multiTable multiLookup := by
  intro s i h
  obtain ⟨j, hj, hget⟩ := dictLookup_sound (multiTable.take 254) 0 s i h
  have hlt : j < (multiTable.take 254).length := by
    by_contra hge
    rw [List.getElem?_eq_none (by omega)] at hget
    cases hget
  have hlt2 : j < 254 := by
    have := multiTable_length
    simp [List.length_take] at hlt
    omega
  refine ⟨by omega, ?_⟩
  rw [hj, Nat.zero_add]
  rw [List.getElem?_take, if_pos hlt2] at hget
  exact hget

theorem decompressCore_fuel :
    ∀ (table : List (List Nat)) (f g : Nat) (s : List Nat),
      s.length ≤ f → s.length ≤ g →
      decompressCore table f s = decompressCore table g s := by
  intro table f
  induction f with
  | zero =>
    intro g s hf hg
    have : s = [] := by
      cases s with
      | nil => rfl
      | cons a l => simp at hf
    subst this
    cases g <;> simp [decompressCore]
  | succ f2 ih =>
    intro g s hf hg
    cases s with
    | nil => cases g <;> simp [decompressCore]
    | cons ch rest =>
      cases g with
      | zero => simp at hg
      | succ g2 =>
        simp only [decompressCore]
        by_cases hch : ch < 254
        · simp only [if_pos hch]
          cases table[ch]? with
          | some entry =>
            rw [ih g2 rest (by simpa using hf) (by simpa using hg)]
          | none => rfl
        · simp only [if_neg hch]
          cases rest with
          | nil => rfl
          | cons nb rest2 =>
            by_cases h254 : ch = 254
            · simp only [if_pos h254]
              rw [ih g2 rest2 (by simp at hf; omega) (by simp at hg; omega)]
            · simp only [if_neg h254]
              by_cases hover : rest2.length < nb + 1
              · simp only [if_pos hover]
              · simp only [if_neg hover]
                rw [ih g2 (rest2.drop (nb + 1))
                  (by simp at hf ⊢; omega) (by simp at hg ⊢; omega)]

theorem decompress_eq_core :
    ∀ (table : List (List Nat)) (s : List Nat),
      decompress table s = decompressCore table s.length s := by
  intro table s
  cases s with
  | nil => simp [decompress, decompressCore]
  | cons ch rest => simp [decompress]

theorem decompress_nil (table : List (List Nat)) : decompress table [] = .ok [] := rfl

theorem decompress_dict (table : List (List Nat)) (i : Nat) (entry rest : List Nat)
    (hi : i < 254) (hget : table[i]? = some entry) :
    decompress table (i :: rest) = (decompress table rest).map (fun out => entry ++ out) := by
  rw [decompress_eq_core, decompress_eq_core]
  simp only [List.length_cons, decompressCore, if_pos hi, hget]

theorem decompress_single (table : List (List Nat)) (b : Nat) (rest : List Nat) :
    decompress table (254 :: b :: rest) = (decompress table rest).map (fun out => b :: out) := by
  rw [decompress_eq_core, decompress_eq_core]
  simp only [List.length_cons, decompressCore]
  rw [if_neg (by omega), if_true]
  rw [decompressCore_fuel table (rest.length + 1) rest.length rest (by omega) (by omega)]

theorem decompress_run (table : List (List Nat)) (len : Nat) (bytes rest : List Nat)
    (hb : bytes.length = len + 1) :
    decompress table (255 :: len :: (bytes ++ rest)) =
      (decompress table rest).map (fun out => bytes ++ out) := by
  rw [decompress_eq_core, decompress_eq_core]
  simp only [List.length_cons, decompressCore]
  rw [if_neg (by omega), if_neg (by omega)]
  have hnlt : ¬ ((bytes ++ rest).length < len + 1) := by
    simp only [List.length_append]
    omega
  rw [if_neg hnlt]
  have ht : (bytes ++ rest).take (len + 1) = bytes := by
    rw [← hb]
    exact List.take_left bytes rest
  have hd : (bytes ++ rest).drop (len + 1) = rest := by
    rw [← hb]
    exact List.drop_left bytes rest
  rw [ht, hd]
  rw [decompressCore_fuel table ((bytes ++ rest).length + 1) rest.length rest
    (by simp [List.length_append]; omega) (by omega)]

theorem decompress_flush (table : List (List Nat)) (v rest : List Nat) :
    decompress table (flushBytes v ++ rest) =
      (decompress table rest).map (fun out => v ++ out) := by
  match v with
  | [] =>
    simp only [flushBytes, List.isEmpty_nil, if_pos rfl, List.nil_append]
    cases h : decompress table rest <;> simp [Except.map, h]
  | [b] =>
    have hfl : flushBytes [b] = [254, b] := by simp [flushBytes]
    rw [hfl]
    exact decompress_single table b rest
  | a :: b :: v2 =>
    have hfl : flushBytes (a :: b :: v2) =
        255 :: ((a :: b :: v2).length - 1) :: (a :: b :: v2) := by
      simp [flushBytes]
    rw [hfl]
    have := decompress_run table ((a :: b :: v2).length - 1) (a :: b :: v2) rest
      (by simp)
    simpa using this

theorem tryLens_sound (lk : List Nat → Option Nat) (rest : List Nat) :
    ∀ n i m, tryLens lk rest n = some (i, m) →
      1 ≤ m ∧ m ≤ n ∧ lk (rest.take m) = some i := by
  intro n
  induction n with
  | zero => intro i m h; simp [tryLens] at h
  | succ n2 ih =>
    intro i m h
    rw [tryLens] at h
    cases hlk : lk (rest.take (n2 + 1)) with
    | some j =>
      rw [hlk] at h
      have h1 : j = i := congrArg Prod.fst (Option.some.inj h)
      have h2 : n2 + 1 = m := congrArg Prod.snd (Option.some.inj h)
      subst h2
      exact ⟨by omega, by omega, by rw [← h1]; exact hlk⟩
    | none =>
      rw [hlk] at h
      obtain ⟨h1, h2, h3⟩ := ih i m h
      exact ⟨h1, by omega, h3⟩

theorem tryLens_none (lk : List Nat → Option Nat) (rest : List Nat) :
    ∀ n, tryLens lk rest n = none → ∀ m, 1 ≤ m → m ≤ n → lk (rest.take m) = none := by
  intro n
  induction n with
  | zero => intro _ m h1 h2; omega
  | succ n2 ih =>
    intro h m h1 h2
    rw [tryLens] at h
    cases hlk : lk (rest.take (n2 + 1)) with
    | some j => rw [hlk] at h; cases h
    | none =>
      rw [hlk] at h
      by_cases hm : m = n2 + 1
      · rw [hm]; exact hlk
      · exact ih h m h1 (by omega)

theorem tryLens_max (lk : List Nat → Option Nat) (rest : List Nat) :
    ∀ n i m, tryLens lk rest n = some (i, m) →
      ∀ m2, m < m2 → m2 ≤ n → lk (rest.take m2) = none := by
  intro n
  induction n with
  | zero => intro i m h; simp [tryLens] at h
  | succ n2 ih =>
    intro i m h m2 hlt hle
    rw [tryLens] at h
    cases hlk : lk (rest.take (n2 + 1)) with
    | some j =>
      rw [hlk] at h
      have h2 : n2 + 1 = m := congrArg Prod.snd (Option.some.inj h)
      omega
    | none =>
      rw [hlk] at h
      by_cases hm : m2 = n2 + 1
      · rw [hm]; exact hlk
      · exact ih i m h m2 hlt (by omega)

theorem findMatch_sound (lk : List Nat → Option Nat) (rest : List Nat) (i m : Nat)
    (h : findMatch lk rest = some (i, m)) :
    1 ≤ m ∧ m ≤ 7 ∧ m ≤ rest.length ∧ lk (rest.take m) = some i := by
  obtain ⟨h1, h2, h3⟩ := tryLens_sound lk rest (min 7 rest.length) i m h
  exact ⟨h1, by omega, by omega, h3⟩

theorem compressLoop_out (lk : List Nat → Option Nat) :
    ∀ (fuel : Nat) (rest v out : List Nat),
      compressLoop lk fuel rest v out = out ++ compressLoop lk fuel rest v [] := by
  intro fuel
  induction fuel with
  | zero => intro rest v out; cases rest <;> simp [compressLoop]
  | succ f ih =>
    intro rest v out
    cases rest with
    | nil => simp [compressLoop]
    | cons x r2 =>
      rw [compressLoop, compressLoop]
      cases hm : findMatch lk (x :: r2) with
      | some pr =>
        obtain ⟨i, m⟩ := pr
        simp only []
        rw [ih (r2.drop (m - 1)) [] (out ++ flushBytes v ++ [i]),
          ih (r2.drop (m - 1)) [] ([] ++ flushBytes v ++ [i])]
        simp [List.append_assoc]
      | none =>
        simp only []
        by_cases h255 : (v ++ [x]).length = 255
        · rw [if_pos h255, if_pos h255]
          rw [ih r2 [] (out ++ flushBytes (v ++ [x])),
            ih r2 [] ([] ++ flushBytes (v ++ [x]))]
          simp [List.append_assoc]
        · rw [if_neg h255, if_neg h255]
          exact ih r2 (v ++ [x]) out

theorem decompress_compressLoop (table : List (List Nat)) (lk : List Nat → Option Nat)
    (good : GoodLookup table lk) :
    ∀ (fuel : Nat) (rest v : List Nat), rest.length ≤ fuel →
      decompress table (compressLoop lk fuel rest v []) = .ok (v ++ rest) := by
  intro fuel
  induction fuel with
  | zero =>
    intro rest v hf
    have hr : rest = [] := by
      cases rest with
      | nil => rfl
      | cons a l => simp at hf
    subst hr
    have h2 := decompress_flush table v []
    rw [List.append_nil] at h2
    rw [compressLoop, List.nil_append, h2, decompress_nil]
    simp [Except.map]
  | succ f ih =>
    intro rest v hf
    cases rest with
    | nil =>
      have h2 := decompress_flush table v []
      rw [List.append_nil] at h2
      rw [compressLoop, List.nil_append, h2, decompress_nil]
      simp [Except.map]
    | cons x r2 =>
      rw [compressLoop]
      cases hm : findMatch lk (x :: r2) with
      | some pr =>
        obtain ⟨i, m⟩ := pr
        simp only []
        obtain ⟨h1, h7, hlen, hlk⟩ := findMatch_sound lk (x :: r2) i m hm
        obtain ⟨hi254, hget⟩ := good _ i hlk
        rw [compressLoop_out, List.nil_append, List.append_assoc, List.singleton_append]
        rw [decompress_flush, decompress_dict table i _ _ hi254 hget]
        rw [ih (r2.drop (m - 1)) [] (by simp only [List.length_drop]; simp at hf; omega)]
        simp only [List.nil_append, Except.map]
        have hsplit : (x :: r2).take m ++ r2.drop (m - 1) = x :: r2 := by
          cases m with
          | zero => omega
          | succ m2 =>
            rw [List.take_succ_cons]
            have : m2 + 1 - 1 = m2 := by omega
            rw [this, List.cons_append, List.take_append_drop]
        rw [hsplit]
      | none =>
        simp only []
        by_cases h255 : (v ++ [x]).length = 255
        · rw [if_pos h255, compressLoop_out, List.nil_append, decompress_flush]
          rw [ih r2 [] (by simp at hf; omega)]
          simp [Except.map, List.append_assoc]
        · rw [if_neg h255, ih r2 (v ++ [x]) (by simp at hf; omega)]
          simp [List.append_assoc]

theorem decompress_encapChunks (table : List (List Nat)) :
    ∀ (fuel : Nat) (l : List Nat), l.length ≤ fuel →
      decompress table (encapChunks fuel l) = .ok l := by
  intro fuel
  induction fuel with
  | zero =>
    intro l hf
    have hl : l = [] := by
      cases l with
      | nil => rfl
      | cons a r => simp at hf
    subst hl
    rw [encapChunks]
    exact decompress_nil table
  | succ f ih =>
    intro l hf
    cases l with
    | nil => rw [encapChunks]; exact decompress_nil table
    | cons x r2 =>
      rw [encapChunks]
      by_cases h1 : ((x :: r2).take 255).length = 1
      · have hr2 : r2 = [] := by
          simp only [List.length_take, List.length_cons] at h1
          cases r2 with
          | nil => rfl
          | cons b r3 => simp at h1; omega
        subst hr2
        rw [if_pos h1]
        simp only [List.take_nil, List.take_cons, List.drop_succ_cons, List.drop_nil]
        rw [encapChunks]
        have : ([x].take 255) = [x] := by simp
        rw [this]
        have h2 := decompress_single table x []
        simp only [List.append_nil] at h2 ⊢
        rw [h2, decompress_nil]
        simp [Except.map]
      · rw [if_neg h1]
        have hge1 : 1 ≤ ((x :: r2).take 255).length := by
          simp [List.length_take]
        rw [List.cons_append, List.cons_append]
        have hrun := decompress_run table (((x :: r2).take 255).length - 1)
          ((x :: r2).take 255) (encapChunks f ((x :: r2).drop 255)) (by omega)
        rw [hrun]
        rw [ih ((x :: r2).drop 255) (by simp only [List.length_drop]; simp at hf ⊢; omega)]
        simp [Except.map, List.take_append_drop]

theorem decompress_encapsulate (table : List (List Nat)) (text : List Nat) :
    decompress table (encapsulate text) = .ok text := by
  cases text with
  | nil => rfl
  | cons x r2 =>
    rw [encapsulate, if_neg (by simp)]
    exact decompress_encapChunks table (x :: r2).length (x :: r2) (by omega)

theorem compressWith_decompress (table : List (List Nat)) (lk : List Nat → Option Nat)
    (good : GoodLookup table lk) (b : Bool) (text out : List Nat)
    (h : compressWith lk b text = .ok out) : decompress table out = .ok text := by
  rw [compressWith] at h
  by_cases hemp : text.isEmpty
  · rw [if_pos hemp] at h
    have : text = [] := by cases text; rfl; simp at hemp
    cases h
    subst this
    rfl
  · rw [if_neg hemp] at h
    by_cases hascii : (b && !(text.all (fun c => c < 128))) = true
    · rw [if_pos hascii] at h; cases h
    · rw [if_neg hascii] at h
      by_cases hlong : (compressLoop lk text.length text [] []).length > worstSize text.length
      · rw [if_pos hlong] at h
        cases h
        exact decompress_encapsulate table text
      · rw [if_neg hlong] at h
        cases h
        have := decompress_compressLoop table lk good text.length text [] (by omega)
        simpa using this

theorem compressWith_ok (lk : List Nat → Option Nat) (b : Bool) (text : List Nat)
    (hb : b = false ∨ ∀ c ∈ text, c < 128) :
    ∃ out, compressWith lk b text = .ok out := by
  rw [compressWith]
  by_cases hemp : text.isEmpty
  · exact ⟨[], by rw [if_pos hemp]⟩
  · rw [if_neg hemp]
    have hascii : (b && !(text.all (fun c => c < 128))) = false := by
      cases hb with
      | inl h => rw [h]; rfl
      | inr h =>
        have : text.all (fun c => c < 128) = true := by
          rw [List.all_eq_true]
          intro c hc
          simpa using h c hc
        rw [this]
        simp
    rw [hascii]
    simp only [Bool.false_eq_true, if_false]
    by_cases hlong : (compressLoop lk text.length text [] []).length > worstSize text.length
    · exact ⟨encapsulate text, by rw [if_pos hlong]⟩
    · exact ⟨compressLoop lk text.length text [] [], by rw [if_neg hlong]⟩

theorem tokenStream_append (table : List (List Nat)) (a b : List Nat)
    (ha : TokenStream table a) (hb : TokenStream table b) :
    TokenStream table (a ++ b) := by
  induction ha with
  | nil => simpa using hb
  | dict i rest entry h254 hget h1 h7 _ ih =>
    exact TokenStream.dict i _ entry h254 hget h1 h7 ih
  | single b2 rest _ ih => exact TokenStream.single b2 _ ih
  | run len bytes rest hlen hb2 _ ih =>
    rw [List.cons_append, List.cons_append, List.append_assoc]
    exact TokenStream.run len bytes _ hlen hb2 ih

theorem tokenStream_flush (table : List (List Nat)) (v rest : List Nat)
    (hv : v.length ≤ 255) (h : TokenStream table rest) :
    TokenStream table (flushBytes v ++ rest) := by
  match v with
  | [] => simpa [flushBytes] using h
  | [b] =>
    have hfl : flushBytes [b] = [254, b] := by simp [flushBytes]
    rw [hfl]
    exact TokenStream.single b rest h
  | a :: b :: v2 =>
    have hfl : flushBytes (a :: b :: v2) =
        255 :: ((a :: b :: v2).length - 1) :: (a :: b :: v2) := by
      simp [flushBytes]
    rw [hfl, List.cons_append, List.cons_append]
    refine TokenStream.run ((a :: b :: v2).length - 1) (a :: b :: v2) rest ?_ ?_ h
    · simp at hv ⊢
      omega
    · simp

theorem compressLoop_tokens (table : List (List Nat)) (lk : List Nat → Option Nat)
    (good : GoodLookup table lk) :
    ∀ (fuel : Nat) (rest v : List Nat), rest.length ≤ fuel → v.length ≤ 254 →
      TokenStream table (compressLoop lk fuel rest v []) := by
  intro fuel
  induction fuel with
  | zero =>
    intro rest v hf hv
    have hr : rest = [] := by
      cases rest with
      | nil => rfl
      | cons a l => simp at hf
    subst hr
    rw [compressLoop, List.nil_append, ← List.append_nil (flushBytes v)]
    exact tokenStream_flush table v [] (by omega) TokenStream.nil
  | succ f ih =>
    intro rest v hf hv
    cases rest with
    | nil =>
      rw [compressLoop, List.nil_append, ← List.append_nil (flushBytes v)]
      exact tokenStream_flush table v [] (by omega) TokenStream.nil
    | cons x r2 =>
      rw [compressLoop]
      cases hm : findMatch lk (x :: r2) with
      | some pr =>
        obtain ⟨i, m⟩ := pr
        simp only []
        obtain ⟨h1, h7, hlen, hlk⟩ := findMatch_sound lk (x :: r2) i m hm
        obtain ⟨hi254, hget⟩ := good _ i hlk
        rw [compressLoop_out, List.nil_append, List.append_assoc, List.singleton_append]
        refine tokenStream_flush table v _ (by omega) ?_
        refine TokenStream.dict i _ ((x :: r2).take m) hi254 hget ?_ ?_ ?_
        · rw [List.length_take]
          omega
        · rw [List.length_take]
          omega
        · exact ih (r2.drop (m - 1)) [] (by simp only [List.length_drop]; simp at hf; omega)
            (by simp)
      | none =>
        simp only []
        by_cases h255 : (v ++ [x]).length = 255
        · rw [if_pos h255, compressLoop_out, List.nil_append]
          refine tokenStream_flush table (v ++ [x]) _ (by omega) ?_
          exact ih r2 [] (by simp at hf; omega) (by simp)
        · rw [if_neg h255]
          refine ih r2 (v ++ [x]) (by simp at hf; omega) ?_
          simp at h255 hv ⊢
          omega

theorem encapChunks_tokens (table : List (List Nat)) :
    ∀ (fuel : Nat) (l : List Nat), l.length ≤ fuel →
      TokenStream table (encapChunks fuel l) := by
  intro fuel
  induction fuel with
  | zero =>
    intro l hf
    have hl : l = [] := by
      cases l with
      | nil => rfl
      | cons a r => simp at hf
    subst hl
    rw [encapChunks]
    exact TokenStream.nil
  | succ f ih =>
    intro l hf
    cases l with
    | nil => rw [encapChunks]; exact TokenStream.nil
    | cons x r2 =>
      rw [encapChunks]
      by_cases h1 : ((x :: r2).take 255).length = 1
      · have hr2 : r2 = [] := by
          simp only [List.length_take, List.length_cons] at h1
          cases r2 with
          | nil => rfl
          | cons b r3 => simp at h1; omega
        subst hr2
        rw [if_pos h1]
        have hx : ([x] : List Nat).take 255 = [x] := by simp
        rw [hx]
        have hd : ([x] : List Nat).drop 255 = [] := by simp
        rw [hd, encapChunks]
        exact TokenStream.single x [] TokenStream.nil
      · rw [if_neg h1]
        have hge1 : 1 ≤ ((x :: r2).take 255).length := by
          simp [List.length_take]
        have hle255 : ((x :: r2).take 255).length ≤ 255 := by
          simp [List.length_take]
        rw [List.cons_append, List.cons_append]
        refine TokenStream.run (((x :: r2).take 255).length - 1) ((x :: r2).take 255) _
          (by omega) (by omega) ?_
        exact ih ((x :: r2).drop 255) (by simp only [List.length_drop]; simp at hf ⊢; omega)

theorem compressWith_tokens (table : List (List Nat)) (lk : List Nat → Option Nat)
    (good : GoodLookup table lk) (b : Bool) (text out : List Nat)
    (h : compressWith lk b text = .ok out) : TokenStream table out := by
  rw [compressWith] at h
  by_cases hemp : text.isEmpty
  · rw [if_pos hemp] at h
    cases h
    exact TokenStream.nil
  · rw [if_neg hemp] at h
    by_cases hascii : (b && !(text.all (fun c => c < 128))) = true
    · rw [if_pos hascii] at h; cases h
    · rw [if_neg hascii] at h
      by_cases hlong : (compressLoop lk text.length text [] []).length > worstSize text.length
      · rw [if_pos hlong] at h
        cases h
        rw [encapsulate]
        by_cases he : text.isEmpty
        · rw [if_pos he]; exact TokenStream.nil
        · rw [if_neg he]
          exact encapChunks_tokens table text.length text (by omega)
      · rw [if_neg hlong] at h
        cases h
        exact compressLoop_tokens table lk good text.length text [] (by omega) (by simp)

theorem worstSize_step (m : Nat) (hm : 1 ≤ m) : 257 + worstSize m ≤ worstSize (m + 255) := by
  rw [worstSize, worstSize]
  rw [Nat.add_div_right m (by norm_num), Nat.add_mod_right m 255]
  split_ifs <;> (try exact (by assumption : False).elim) <;> omega

theorem encapChunks_length :
    ∀ (fuel : Nat) (l : List Nat), l.length ≤ fuel →
      (encapChunks fuel l).length ≤ worstSize l.length := by
  intro fuel
  induction fuel with
  | zero =>
    intro l hf
    have hl : l = [] := by
      cases l with
      | nil => rfl
      | cons a r => simp at hf
    subst hl
    rw [encapChunks]
    simp [worstSize]
  | succ f ih =>
    intro l hf
    cases l with
    | nil => rw [encapChunks]; simp [worstSize]
    | cons x r2 =>
      rw [encapChunks]
      have hlen := List.length_take 255 (x :: r2)
      by_cases h1 : ((x :: r2).take 255).length = 1
      · have hr2 : r2 = [] := by
          simp only [List.length_take, List.length_cons] at h1
          cases r2 with
          | nil => rfl
          | cons b r3 => simp at h1; omega
        subst hr2
        rw [if_pos h1]
        have hd : ([x] : List Nat).drop 255 = [] := by simp
        rw [hd, encapChunks]
        simp [worstSize]
      · rw [if_neg h1]
        have hrec := ih ((x :: r2).drop 255)
          (by simp only [List.length_drop]; simp at hf ⊢; omega)
        by_cases hle : (x :: r2).length ≤ 255
        · have hdrop : ((x :: r2).drop 255).length = 0 := by
            rw [List.length_drop]
            omega
          have htake : ((x :: r2).take 255).length = (x :: r2).length := by
            rw [hlen]; omega
          have hchunks : (encapChunks f ((x :: r2).drop 255)).length = 0 := by
            have hnil := List.length_eq_zero.mp hdrop
            rw [hnil, encapChunks]
            rfl
          have h2 : 2 ≤ (x :: r2).length := by
            rw [List.length_cons] at hlen ⊢
            omega
          rw [List.length_append, List.length_cons, List.length_cons, hchunks, htake,
            worstSize]
          split_ifs <;> omega
        · have htake : ((x :: r2).take 255).length = 255 := by rw [hlen]; omega
          have hdrop : ((x :: r2).drop 255).length = (x :: r2).length - 255 := by
            rw [List.length_drop]
          rw [hdrop] at hrec
          have hstep := worstSize_step ((x :: r2).length - 255) (by omega)
          have heq : (x :: r2).length - 255 + 255 = (x :: r2).length := by omega
          rw [heq] at hstep
          rw [List.length_append, List.length_cons, List.length_cons, htake]
          omega

theorem encapsulate_length (text : List Nat) :
    (encapsulate text).length ≤ worstSize text.length := by
  rw [encapsulate]
  by_cases he : text.isEmpty
  · rw [if_pos he]
    simp [worstSize]
  · rw [if_neg he]
    exact encapChunks_length text.length text (by omega)

theorem compressWith_length (lk : List Nat → Option Nat) (b : Bool) (text out : List Nat)
    (h : compressWith lk b text = .ok out) : out.length ≤ worstSize text.length := by
  rw [compressWith] at h
  by_cases hemp : text.isEmpty
  · rw [if_pos hemp] at h
    cases h
    have : text = [] := by cases text; rfl; simp at hemp
    rw [this]
    simp [worstSize]
  · rw [if_neg hemp] at h
    by_cases hascii : (b && !(text.all (fun c => c < 128))) = true
    · rw [if_pos hascii] at h; cases h
    · rw [if_neg hascii] at h
      by_cases hlong : (compressLoop lk text.length text [] []).length > worstSize text.length
      · rw [if_pos hlong] at h
        cases h
        exact encapsulate_length text
      · rw [if_neg hlong] at h
        cases h
        omega

theorem findMatch_none_of_noMatch (lk : List Nat → Option Nat) (rest : List Nat)
    (h : ∀ m, 1 ≤ m → m ≤ 7 → lk (rest.take m) = none) :
    findMatch lk rest = none := by
  rw [findMatch]
  cases hres : tryLens lk rest (min 7 rest.length) with
  | none => rfl
  | some pr =>
    obtain ⟨i, m⟩ := pr
    obtain ⟨h1, h2, h3⟩ := tryLens_sound lk rest (min 7 rest.length) i m hres
    rw [h m h1 (by omega)] at h3
    cases h3

theorem compressLoop_noMatch (lk : List Nat → Option Nat) :
    ∀ (fuel : Nat) (rest v out : List Nat), rest.length ≤ fuel → v.length ≤ 254 →
      (∀ k m, 1 ≤ m → m ≤ 7 → lk ((rest.drop k).take m) = none) →
      compressLoop lk fuel rest v out = out ++ chunkFlush (v ++ rest) := by
  intro fuel
  induction fuel with
  | zero =>
    intro rest v out hf hv hnm
    have hr : rest = [] := by
      cases rest with
      | nil => rfl
      | cons a l => simp at hf
    subst hr
    rw [compressLoop, List.append_nil, chunkFlush, dif_pos (by omega)]
  | succ f ih =>
    intro rest v out hf hv hnm
    cases rest with
    | nil => rw [compressLoop, List.append_nil, chunkFlush, dif_pos (by omega)]
    | cons x r2 =>
      rw [compressLoop]
      have hfm : findMatch lk (x :: r2) = none := by
        apply findMatch_none_of_noMatch
        intro m h1 h7
        simpa using hnm 0 m h1 h7
      rw [hfm]
      simp only []
      have hshift : ∀ k m, 1 ≤ m → m ≤ 7 → lk ((r2.drop k).take m) = none := by
        intro k m h1 h7
        have := hnm (k + 1) m h1 h7
        simpa using this
      have hf2 : r2.length ≤ f := by
        rw [List.length_cons] at hf
        omega
      by_cases h255 : (v ++ [x]).length = 255
      · rw [if_pos h255]
        rw [ih r2 [] (out ++ flushBytes (v ++ [x])) hf2 (by simp) hshift]
        have hsplit : v ++ x :: r2 = (v ++ [x]) ++ r2 := by
          rw [List.append_assoc, List.singleton_append]
        have hlen2 : ((v ++ [x]) ++ r2).length = 255 + r2.length := by
          rw [List.length_append, h255]
        have htk : ((v ++ [x]) ++ r2).take 255 = v ++ [x] := by
          have h := List.take_left (v ++ [x]) r2
          rwa [h255] at h
        have hdr : ((v ++ [x]) ++ r2).drop 255 = r2 := by
          have h := List.drop_left (v ++ [x]) r2
          rwa [h255] at h
        have hrhs : chunkFlush ((v ++ [x]) ++ r2) =
            flushBytes (v ++ [x]) ++ chunkFlush r2 := by
          rw [chunkFlush, dif_neg (by omega), htk, hdr]
        rw [hsplit, hrhs, List.nil_append, List.append_assoc]
      · rw [if_neg h255]
        have hv2 : (v ++ [x]).length ≤ 254 := by
          rw [List.length_append] at h255 ⊢
          simp at h255 ⊢
          omega
        rw [ih r2 (v ++ [x]) out hf2 hv2 hshift]
        rw [List.append_assoc, List.singleton_append]

theorem roundtrip_gen (table : List (List Nat)) (lk : List Nat → Option Nat)
    (good : GoodLookup table lk) (b : Bool) (text : List Nat)
    (hb : b = false ∨ ∀ c ∈ text, c < 128) :
    (compressWith lk b text).bind (decompress table) = .ok text := by
  obtain ⟨out, hout⟩ := compressWith_ok lk b text hb
  rw [hout]
  simpa [Except.bind] using compressWith_decompress table lk good b text out hout

/-- C1: round-trip: for every ASCII input when the ASCII check is on, and for
every input when it is off, decompressing the compressed text returns it
exactly, under either class (`Smaz` and `SmazMultilang`), the worst-case
encapsulation branch included. -/
theorem claim1_round_trip :
    (∀ text : List Nat, (∀ c ∈ text, c < 128) →
      (smazCompress true text).bind smazDecompress = .ok text) ∧
    (∀ text : List Nat, (smazCompress false text).bind smazDecompress = .ok text) ∧
    (∀ text : List Nat, (∀ c ∈ text, c < 128) →
      (multiCompress true text).bind multiDecompress = .ok text) ∧
    (∀ text : List Nat, (multiCompress false text).bind multiDecompress = .ok text) := by
  refine ⟨?_, ?_, ?_, ?_⟩
  · intro text h
    exact roundtrip_gen smazTable smazLookup smazLookup_good true text (Or.inr h)
  · intro text
    exact roundtrip_gen smazTable smazLookup smazLookup_good false text (Or.inl rfl)
  · intro text h
    exact roundtrip_gen multiTable multiLookup multiLookup_good true text (Or.inr h)
  · intro text
    exact roundtrip_gen multiTable multiLookup multiLookup_good false text (Or.inl rfl)

/-- Witness for C1 at the concrete input "kekek", which exercises the
worst-case encapsulation fallback (its greedy token stream has 8 bytes,
above the worst-case bound 7). -/
theorem claim1_round_trip_witness :
    (smazCompress true (toCP "kekek")).bind smazDecompress = .ok (toCP "kekek") :=
  claim1_round_trip.1 (toCP "kekek") (by decide)

/-- C2: bounded expansion: every output of `compress` is at most
`worstSize` of the input length; `worstSize` matches the spec formula; the
encapsulated form respects the bound; and when the greedy token stream
exceeds the bound the encoder returns the encapsulated form instead. -/
theorem claim2_bounded_expansion :
    (∀ (b : Bool) (text out : List Nat), smazCompress b text = .ok out →
      out.length ≤ worstSize text.length) ∧
    (∀ (b : Bool) (text out : List Nat), multiCompress b text = .ok out →
      out.length ≤ worstSize text.length) ∧
    (∀ text : List Nat, (encapsulate text).length ≤ worstSize text.length) ∧
    (∀ n : Nat, worstSize n =
      if n = 0 then 0 else if n = 1 then 2
      else n + (2 * (n / 255) + if n % 255 ≠ 0 then 2 else 0)) ∧
    (∀ (lk : List Nat → Option Nat) (b : Bool) (text : List Nat),
      text ≠ [] → (b = true → ∀ c ∈ text, c < 128) →
      (compressLoop lk text.length text [] []).length > worstSize text.length →
      compressWith lk b text = .ok (encapsulate text)) := by
  refine ⟨?_, ?_, encapsulate_length, ?_, ?_⟩
  · intro b text out h
    exact compressWith_length smazLookup b text out h
  · intro b text out h
    exact compressWith_length multiLookup b text out h
  · intro n
    rw [worstSize]
    split_ifs <;> omega
  · intro lk b text hne hok hlong
    rw [compressWith, if_neg (by simpa [List.isEmpty_eq_false] using hne)]
    have hascii : (b && !(text.all (fun c => c < 128))) = false := by
      cases b with
      | false => rfl
      | true =>
        have hall : text.all (fun c => c < 128) = true := by
          rw [List.all_eq_true]
          intro c hc
          simpa using hok rfl c hc
        rw [hall]
        rfl
    rw [hascii]
    simp only [Bool.false_eq_true, if_false]
    rw [if_pos hlong]

/-- Witness for C2 at the concrete input "kekek" (encapsulation branch). -/
theorem claim2_bounded_expansion_witness :
    ([255, 4, 107, 101, 107, 101, 107] : List Nat).length ≤
      worstSize (toCP "kekek").length :=
  claim2_bounded_expansion.1 true (toCP "kekek") [255, 4, 107, 101, 107, 101, 107] rfl

/-- C3: malformed or truncated streams make `decompress` fail with a typed
error and no output: an unpopulated index below 254, a trailing `254`
escape with no byte after it, and a literal-run header announcing more
bytes than remain, in particular `decompress [255, 10]`. -/
theorem claim3_decode_errors :
    (∀ (table : List (List Nat)) (i : Nat) (rest : List Nat), i < 254 →
      table.length ≤ i → ∃ e, decompress table (i :: rest) = .error e) ∧
    (∀ table : List (List Nat), ∃ e, decompress table [254] = .error e) ∧
    (∀ (table : List (List Nat)) (len : Nat) (rest : List Nat), rest.length < len + 1 →
      ∃ e, decompress table (255 :: len :: rest) = .error e) ∧
    (∃ e, smazDecompress [255, 10] = .error e) ∧
    (∃ e, multiDecompress [255, 10] = .error e) := by
  refine ⟨?_, ?_, ?_, ⟨_, rfl⟩, ⟨_, rfl⟩⟩
  · intro table i rest hi hlen
    rw [decompress_eq_core]
    refine ⟨"Error de descompresión: list index out of range", ?_⟩
    simp only [List.length_cons, decompressCore]
    rw [if_pos hi, List.getElem?_eq_none hlen]
  · intro table
    exact ⟨_, rfl⟩
  · intro table len rest hlt
    rw [decompress_eq_core]
    refine ⟨"Error de descompresión: Desbordamiento de buffer", ?_⟩
    simp only [List.length_cons, decompressCore]
    rw [if_neg (by omega), if_neg (by omega), if_pos hlt]

/-- Witness for C3: a 1-entry table rejects index 3; a trailing escape and
the truncated run `[255, 10]` are rejected on the standard table. -/
theorem claim3_decode_errors_witness :
    (∃ e, decompress [[65]] [3] = .error e) ∧
    (∃ e, decompress smazTable [254] = .error e) ∧
    (∃ e, decompress smazTable [255, 10] = .error e) :=
  ⟨claim3_decode_errors.1 [[65]] 3 [] (by omega) (by simp),
    claim3_decode_errors.2.1 smazTable,
    claim3_decode_errors.2.2.1 smazTable 10 [] (by simp)⟩

/-- C7: with the ASCII check on, any input containing a code point at or
above 128 is rejected with an error and no output; with it off, every
input is accepted. -/
theorem claim7_ascii_mode :
    (∀ text : List Nat, (∃ c ∈ text, 128 ≤ c) →
      smazCompress true text = .error "SMAZ solo procesa texto ASCII") ∧
    (∀ text : List Nat, ∃ out, smazCompress false text = .ok out) ∧
    (∀ text : List Nat, (∃ c ∈ text, 128 ≤ c) →
      multiCompress true text = .error "SMAZ solo procesa texto ASCII") ∧
    (∀ text : List Nat, ∃ out, multiCompress false text = .ok out) := by
  have key : ∀ (lk : List Nat → Option Nat) (text : List Nat), (∃ c ∈ text, 128 ≤ c) →
      compressWith lk true text = .error "SMAZ solo procesa texto ASCII" := by
    intro lk text h
    obtain ⟨c, hc, h128⟩ := h
    have hne : text ≠ [] := by
      intro he
      rw [he] at hc
      cases hc
    rw [compressWith, if_neg (by simpa [List.isEmpty_eq_false] using hne)]
    have hall : text.all (fun c => c < 128) = false := by
      rw [List.all_eq_false]
      exact ⟨c, hc, by simpa using h128⟩
    rw [hall]
    rfl
  exact ⟨fun text h => key smazLookup text h,
    fun text => compressWith_ok smazLookup false text (Or.inl rfl),
    fun text h => key multiLookup text h,
    fun text => compressWith_ok multiLookup false text (Or.inl rfl)⟩

/-- Witness for C7 at the one-character non-ASCII input "é" (code point 233). -/
theorem claim7_ascii_mode_witness :
    smazCompress true [233] = .error "SMAZ solo procesa texto ASCII" :=
  claim7_ascii_mode.1 [233] ⟨233, by simp, by omega⟩

/-- C8: empty input maps to empty output in both directions, under either
class and either ASCII mode. -/
theorem claim8_empty :
    smazCompress true [] = .ok [] ∧ smazCompress false [] = .ok [] ∧
    multiCompress true [] = .ok [] ∧ multiCompress false [] = .ok [] ∧
    smazDecompress [] = .ok [] ∧ multiDecompress [] = .ok [] :=
  ⟨rfl, rfl, rfl, rfl, rfl, rfl⟩

/-- C4: the tokenizer is greedy over a 7-element window: at each position it
tries lengths `min 7 remaining` down to 1 and takes the first hit, so every
emitted dictionary token names an entry of length 1..7 (captured by
`TokenStream`), and a longer entry such as the multilingual "https://"
(8 characters, index 233) is never emitted even on that exact input. -/
theorem claim4_greedy_window :
    (∀ (lk : List Nat → Option Nat) (rest : List Nat) (i m : Nat),
      findMatch lk rest = some (i, m) →
      1 ≤ m ∧ m ≤ 7 ∧ m ≤ rest.length ∧ lk (rest.take m) = some i ∧
      ∀ m2, m < m2 → m2 ≤ min 7 rest.length → lk (rest.take m2) = none) ∧
    (∀ (b : Bool) (text out : List Nat), multiCompress b text = .ok out →
      TokenStream multiTable out) ∧
    (∀ (b : Bool) (text out : List Nat), smazCompress b text = .ok out →
      TokenStream smazTable out) ∧
    (multiLookup (toCP "https://") = some 233 ∧ (toCP "https://").length = 8 ∧
      multiCompress false (toCP "https://") = .ok [20, 9, 9, 14, 6, 205, 212, 212]) := by
  refine ⟨?_, ?_, ?_, rfl, rfl, rfl⟩
  · intro lk rest i m h
    obtain ⟨h1, h2, h3, h4⟩ := findMatch_sound lk rest i m h
    exact ⟨h1, h2, h3, h4, fun m2 hgt hle => tryLens_max lk rest (min 7 rest.length) i m h m2 hgt hle⟩
  · intro b text out h
    exact compressWith_tokens multiTable multiLookup multiLookup_good b text out h
  · intro b text out h
    exact compressWith_tokens smazTable smazLookup smazLookup_good b text out h

/-- Witness for C4 at the input "the end": the greedy match at position 0 is
the 3-character entry "the" at index 1. -/
theorem claim4_greedy_window_witness :
    1 ≤ 3 ∧ 3 ≤ 7 ∧ 3 ≤ (toCP "the end").length ∧
      smazLookup ((toCP "the end").take 3) = some 1 ∧
      ∀ m2, 3 < m2 → m2 ≤ min 7 (toCP "the end").length →
        smazLookup ((toCP "the end").take m2) = none :=
  claim4_greedy_window.1 smazLookup (toCP "the end") 1 3 rfl

/-- C5: the verbatim flush emits nothing for an empty buffer, `[254, b]` for
one pending element, `[255, length-1]` then the raw elements for 2..255
pending elements; the encoder flushes at 255 so no literal run carries
more than 255 raw elements (every run token in its output has
`len ≤ 254`, i.e. `len + 1 ≤ 255` raw elements), and a matchless 300-element
input yields exactly two literal-run tokens. -/
theorem claim5_flush_rule :
    flushBytes [] = [] ∧
    (∀ b : Nat, flushBytes [b] = [254, b]) ∧
    (∀ v : List Nat, 2 ≤ v.length → v.length ≤ 255 →
      flushBytes v = 255 :: (v.length - 1) :: v) ∧
    (∀ (b : Bool) (text out : List Nat), smazCompress b text = .ok out →
      TokenStream smazTable out) ∧
    smazCompress true (List.replicate 300 1) =
      .ok (255 :: 254 :: (List.replicate 255 1 ++ 255 :: 44 :: List.replicate 45 1)) := by
  refine ⟨rfl, ?_, ?_, ?_, ?_⟩
  · intro b
    simp [flushBytes]
  · intro v h2 h255
    match v with
    | [] => simp at h2
    | [b] => simp at h2
    | a :: b :: v2 => simp [flushBytes]
  · intro b text out h
    exact compressWith_tokens smazTable smazLookup smazLookup_good b text out h
  · have hnone : ∀ j : Nat, j ≤ 7 → smazLookup (List.replicate j 1) = none := by decide
    have hnm : ∀ k m, 1 ≤ m → m ≤ 7 →
        smazLookup (((List.replicate 300 (1 : Nat)).drop k).take m) = none := by
      intro k m h1 h7
      rw [List.drop_replicate, List.take_replicate]
      exact hnone _ (by omega)
    have hloop := compressLoop_noMatch smazLookup (List.replicate 300 (1 : Nat)).length
      (List.replicate 300 1) [] [] (le_refl _) (by simp) hnm
    rw [List.nil_append, List.nil_append] at hloop
    have hchunk : chunkFlush (List.replicate 300 (1 : Nat)) =
        255 :: 254 :: (List.replicate 255 1 ++ 255 :: 44 :: List.replicate 45 1) := by
      rw [chunkFlush, dif_neg (by simp)]
      rw [List.take_replicate, List.drop_replicate]
      norm_num
      rw [chunkFlush, dif_pos (by simp)]
      have hf1 : flushBytes (List.replicate 255 (1 : Nat)) =
          255 :: 254 :: List.replicate 255 1 := by
        rw [flushBytes, if_neg (by simp), if_neg (by simp)]
        norm_num
      have hf2 : flushBytes (List.replicate 45 (1 : Nat)) =
          255 :: 44 :: List.replicate 45 1 := by
        rw [flushBytes, if_neg (by simp), if_neg (by simp)]
        norm_num
      rw [hf1, hf2]
      simp
    show compressWith smazLookup true (List.replicate 300 1) = _
    rw [compressWith, if_neg (by simp)]
    have hascii : (true && !((List.replicate 300 (1 : Nat)).all (fun c => c < 128))) = false := by
      have hall : (List.replicate 300 (1 : Nat)).all (fun c => c < 128) = true := by
        rw [List.all_eq_true]
        intro c hc
        rw [List.mem_replicate] at hc
        simp [hc.2]
      rw [hall]
      rfl
    rw [hascii]
    simp only [Bool.false_eq_true, if_false]
    rw [hloop, hchunk]
    have hlen : (255 :: 254 ::
        (List.replicate 255 (1 : Nat) ++ 255 :: 44 :: List.replicate 45 1)).length = 304 := by
      simp
    rw [hlen]
    have hw : worstSize (List.replicate 300 (1 : Nat)).length = 304 := by
      rw [List.length_replicate]
      decide
    rw [hw]
    rfl

/-- Witness for C5: the flush of the one-element buffer `[9]` and of the
two-element buffer `[1, 2]`. -/
theorem claim5_flush_rule_witness :
    flushBytes [9] = [254, 9] ∧ flushBytes [1, 2] = 255 :: 1 :: [1, 2] :=
  ⟨claim5_flush_rule.2.1 9, by
    have h := claim5_flush_rule.2.2.1 [1, 2] (by simp) (by simp)
    simpa using h⟩

/-- C6 counterexample: byte 253 IS a dictionary token under both shipped
tables, contradicting the claim that dictionary tokens stop at 252: the
`Smaz` table has 254 entries (index 253 is ".com") and the multilingual
lookup keeps indices up to 253 (index 253 is the left brace), so both
encoders emit 253 and both decoders resolve it. -/
theorem claim6_counterexample :
    smazCompress true (toCP ".com") = .ok [253] ∧
    smazDecompress [253] = .ok (toCP ".com") ∧
    multiCompress false (toCP "\x7b") = .ok [253] ∧
    multiDecompress [253] = .ok (toCP "\x7b") :=
  ⟨rfl, rfl, rfl, rfl⟩

/-- C6 amended: a dictionary token is one byte `b` with `0 ≤ b ≤ 253`, and
only 254 and 255 are control codes: no lookup ever produces an index above
253, the decoder treats 254 and 255 as escapes regardless of the table,
and index 253 is populated and used by both shipped tables. -/
theorem claim6_amended :
    (∀ (s : List Nat) (i : Nat), smazLookup s = some i → i ≤ 253) ∧
    (∀ (s : List Nat) (i : Nat), multiLookup s = some i → i ≤ 253) ∧
    (∀ (table : List (List Nat)) (b : Nat) (rest : List Nat),
      decompress table (254 :: b :: rest) = (decompress table rest).map (fun out => b :: out)) ∧
    (∀ (table : List (List Nat)) (len : Nat) (bytes rest : List Nat),
      bytes.length = len + 1 →
      decompress table (255 :: len :: (bytes ++ rest)) =
        (decompress table rest).map (fun out => bytes ++ out)) ∧
    smazLookup (toCP ".com") = some 253 ∧
    multiLookup (toCP "\x7b") = some 253 := by
  refine ⟨?_, ?_, decompress_single, decompress_run, rfl, rfl⟩
  · intro s i h
    obtain ⟨j, hj, hget⟩ := dictLookup_sound smazTable 0 s i h
    have hlt : j < smazTable.length := by
      by_contra hge
      rw [List.getElem?_eq_none (by omega)] at hget
      cases hget
    rw [smazTable_length] at hlt
    omega
  · intro s i h
    obtain ⟨hi, _⟩ := multiLookup_good s i h
    omega

/-- Witness for C6 amended: the bound applied at the concrete hits for
".com" and for the left brace. -/
theorem claim6_amended_witness : (253 : Nat) ≤ 253 ∧ (253 : Nat) ≤ 253 :=
  ⟨claim6_amended.1 (toCP ".com") 253 rfl,
    claim6_amended.2.1 (toCP "\x7b") 253 rfl⟩

/-- C9: the multilingual reverse lookup is last-wins over the first 254
entries: a hit is a populated index and is at least every index below 254
holding the same value; concretely "das" resolves to 154 (not 152) and
"dans" to 161 (not 142), and both still round-trip. -/
theorem claim9_duplicates_lastwins :
    (∀ (s : List Nat) (i : Nat), multiLookup s = some i →
      multiTable[i]? = some s ∧
      ∀ j : Nat, j < 254 → multiTable[j]? = some s → j ≤ i) ∧
    multiLookup (toCP "das") = some 154 ∧
    multiLookup (toCP "dans") = some 161 ∧
    multiTable[152]? = some (toCP "das") ∧
    multiTable[154]? = some (toCP "das") ∧
    multiTable[142]? = some (toCP "dans") ∧
    multiTable[161]? = some (toCP "dans") ∧
    (multiCompress false (toCP "das")).bind multiDecompress = .ok (toCP "das") ∧
    (multiCompress false (toCP "dans")).bind multiDecompress = .ok (toCP "dans") := by
  refine ⟨?_, rfl, rfl, rfl, rfl, rfl, rfl,
    roundtrip_gen multiTable multiLookup multiLookup_good false (toCP "das") (Or.inl rfl),
    roundtrip_gen multiTable multiLookup multiLookup_good false (toCP "dans") (Or.inl rfl)⟩
  intro s i h
  refine ⟨(multiLookup_good s i h).2, ?_⟩
  intro j hj hget
  have hget2 : (multiTable.take 254)[j]? = some s := by
    rw [List.getElem?_take, if_pos hj]
    exact hget
  have := dictLookup_last (multiTable.take 254) 0 s i h j hget2
  omega

/-- Witness for C9 at the duplicated value "das", whose lookup hit is 154. -/
theorem claim9_duplicates_lastwins_witness :
    multiTable[154]? = some (toCP "das") ∧
    ∀ j : Nat, j < 254 → multiTable[j]? = some (toCP "das") → j ≤ 154 :=
  claim9_duplicates_lastwins.1 (toCP "das") 154 rfl

/-- C10: with the ASCII check off both codecs operate on sequence elements,
not 8-bit bytes: the round-trip holds for every list of code points
(values ≥ 256 included), and every control position of the produced stream
is below 256 (dictionary tokens are < 254, escapes are 254/255, run length
bytes are ≤ 254, as `TokenStream` states); concretely the input
`[70000, 100, 300, 65]` is carried verbatim inside one run token. -/
theorem claim10_codepoint_semantics :
    (∀ text : List Nat, (multiCompress false text).bind multiDecompress = .ok text) ∧
    (∀ text : List Nat, (smazCompress false text).bind smazDecompress = .ok text) ∧
    (∀ (b : Bool) (text out : List Nat), multiCompress b text = .ok out →
      TokenStream multiTable out) ∧
    multiCompress false [70000, 100, 300, 65] = .ok [255, 3, 70000, 100, 300, 65] ∧
    multiDecompress [255, 3, 70000, 100, 300, 65] = .ok [70000, 100, 300, 65] := by
  refine ⟨?_, ?_, ?_, rfl, rfl⟩
  · intro text
    exact roundtrip_gen multiTable multiLookup multiLookup_good false text (Or.inl rfl)
  · intro text
    exact roundtrip_gen smazTable smazLookup smazLookup_good false text (Or.inl rfl)
  · intro b text out h
    exact compressWith_tokens multiTable multiLookup multiLookup_good b text out h

/-- Witness for C10: the token grammar holds on the concrete stream produced
for `[70000, 100, 300, 65]`. -/
theorem claim10_codepoint_semantics_witness :
    TokenStream multiTable [255, 3, 70000, 100, 300, 65] :=
  claim10_codepoint_semantics.2.2.1 false [70000, 100, 300, 65]
    [255, 3, 70000, 100, 300, 65] rfl

end SmazProof
